import Mathlib

/-!
Shallow embedding of `src/app.py` (a Streamlit speech-to-text app) and proofs
about its audio-chunking, concurrent transcription, file cleanup and
LLM-correction logic.

Modelling conventions:
* An audio stream (`pydub.AudioSegment`) is a list of millisecond frames;
  slicing `audio[i:i+L]` is `(audio.drop i).take L`.
* The file system is a `Finset String` of existing file names; `export`
  inserts a name, `os.remove` erases it.
* The Whisper model is an oracle `Audio → Except E (List String)` returning
  the per-subsegment texts of a chunk, or raising an exception `e : E`.
* `concurrent.futures.as_completed` yields futures in completion order; that
  order is an explicit parameter `order : List Nat` (a permutation of the
  segment indices) threaded through `process_audio_file`.
-/

/-- Millisecond-indexed audio content, as `pydub` exposes it to slicing. -/
abbrev Audio := List Nat

/-- Name of the k-th chunk file, from `f"segment_\x7bi // segment_length_ms\x7d.wav"`
in `split_audio_file` (src/app.py line 36). -/
def segmentName (k : Nat) : String :=
  "segment_" ++ Nat.repr k ++ ".wav"

/-- Translation of Python `range(0, n, step)` for a positive `step`
(src/app.py line 34): the slice start offsets `0, step, 2*step, ...` below `n`.
`range` with positive step produces exactly `⌈n / step⌉` elements. -/
def sliceStarts (n step : Nat) : List Nat :=
  List.range' 0 ((n + step - 1) / step) step

/-- `split_audio_file` (src/app.py lines 30-39): cut `audio` into consecutive
chunks of `segment_length_ms` milliseconds, exporting chunk `i // L` under
`segmentName (i / L)`.  Returns the (file name, chunk content) pairs in order. -/
def split_audio_file (audio : Audio) (segment_length_ms : Nat) : List (String × Audio) :=
  (sliceStarts audio.length segment_length_ms).map
    (fun i => (segmentName (i / segment_length_ms),
               (audio.drop i).take segment_length_ms))

/-- `transcribe_segment` (src/app.py lines 41-45): transcribe one chunk with the
Whisper oracle, join the per-subsegment texts with `" ".join`, and delete the
chunk file.  If the oracle raises, the `os.remove` line is never reached and
the chunk file stays. -/
def transcribe_segment {E : Type} (whisper : Audio → Except E (List String))
    (seg : String × Audio) (fs : Finset String) :
    Except E String × Finset String :=
  match whisper seg.2 with
  | Except.ok texts => (Except.ok (String.intercalate " " texts), fs.erase seg.1)
  | Except.error e => (Except.error e, fs)

/-- Effect of `segment.export(segment_file, format="wav")` for every produced
chunk (src/app.py line 37): each chunk file comes into existence. -/
def exportSegments (segs : List (String × Audio)) (fs : Finset String) : Finset String :=
  segs.foldl (fun acc seg => insert seg.1 acc) fs

/-- The submitted segments listed in completion order: `order` holds indices
into `segs`, as produced by `concurrent.futures.as_completed` (src/app.py
line 59). -/
def orderedSegs (segs : List (String × Audio)) (order : List Nat) : List (String × Audio) :=
  order.filterMap (fun i => segs[i]?)

/-- File-system effect of all worker threads: every worker runs
`transcribe_segment` to completion (the `with ThreadPoolExecutor` block waits
for all futures before exiting), deleting its chunk file exactly when its
transcription succeeded. -/
def runWorkers {E : Type} (whisper : Audio → Except E (List String))
    (segs : List (String × Audio)) (fs : Finset String) : Finset String :=
  segs.foldl (fun acc seg => (transcribe_segment whisper seg acc).2) fs

/-- The main loop of `process_audio_file` (src/app.py lines 59-61): read each
completed future's result in completion order, appending the fragment to
`full_transcription`; the first `future.result()` that re-raises aborts the
loop and the exception propagates. -/
def gatherResults {E : Type} (whisper : Audio → Except E (List String)) :
    List (String × Audio) → Except E (List String)
  | [] => Except.ok []
  | seg :: rest =>
    match whisper seg.2 with
    | Except.ok texts =>
      (gatherResults whisper rest).map
        (fun texts2 => String.intercalate " " texts :: texts2)
    | Except.error e => Except.error e

/-- `process_audio_file` (src/app.py lines 47-70): split the audio into
one-minute chunks (the default `segment_length_ms=60000`), transcribe them
concurrently, assemble `" ".join(full_transcription)` in completion order, and
on success delete the original input file.  Returns the transcription result
and the final file system. -/
def process_audio_file {E : Type} (whisper : Audio → Except E (List String))
    (order : List Nat) (audio_file : String) (audio : Audio)
    (fs : Finset String) : Except E String × Finset String :=
  match gatherResults whisper (orderedSegs (split_audio_file audio 60000) order) with
  | Except.ok texts =>
    (Except.ok (String.intercalate " " texts),
     (runWorkers whisper (orderedSegs (split_audio_file audio 60000) order)
        (exportSegments (split_audio_file audio 60000) fs)).erase audio_file)
  | Except.error e =>
    (Except.error e,
     runWorkers whisper (orderedSegs (split_audio_file audio 60000) order)
       (exportSegments (split_audio_file audio 60000) fs))

/-- The `complete_query` f-string sent to the hosted model (src/app.py
lines 103 and 143). -/
def completeQuery (transcription : String) : String :=
  "Please correct any typos or grammatical errors in the following text: \"" ++
    transcription ++
    "\". Provide a coherent and polished version. Just give the corrected text without any additional information."

/-- Python `str.strip()`: drop leading and trailing whitespace. -/
def pyStrip (s : String) : String :=
  ⟨((s.data.dropWhile Char.isWhitespace).reverse.dropWhile Char.isWhitespace).reverse⟩

/-- Truthiness of a Python string: nonempty strings are truthy. -/
def strTruthy (s : String) : Bool :=
  s != ""

/-- The correction step of `main` (src/app.py lines 99-107 and 139-147): when
`transcription.strip()` is truthy, `model.invoke(complete_query)` runs and its
reply is the corrected text; otherwise the model is not called and the
corrected text is the fixed fallback message.  The first component records the
query sent to the hosted model, if any. -/
def correct_transcription (llm : String → String) (transcription : String) :
    Option String × String :=
  if strTruthy (pyStrip transcription) then
    (some (completeQuery transcription), llm (completeQuery transcription))
  else
    (none, "No transcription available.")

/-- Modelled from the Python standard library's documented behaviour:
src/app.py line 56 creates `ThreadPoolExecutor()` with no `max_workers`
argument, so the pool size is the library default
`min(32, os.cpu_count() + 4)`, a function of the machine's CPU count. -/
def threadPoolMaxWorkers (cpuCount : Nat) : Nat :=
  min 32 (cpuCount + 4)

/-- Decimal value of a digit character, inverse of `Nat.digitChar` on `0..9`. -/
def charVal (c : Char) : Nat :=
  c.toNat - 48

/-- Decode a digit-character list most-significant-first, starting from `a`. -/
def decodeChars (l : List Char) (a : Nat) : Nat :=
  l.foldl (fun x c => x * 10 + charVal c) a

theorem charVal_digitChar {m : Nat} (h : m < 10) : charVal (Nat.digitChar m) = m := by
  interval_cases m <;> rfl

theorem decodeChars_toDigitsCore :
    ∀ (f n : Nat) (acc : List Char), n < f →
      decodeChars (Nat.toDigitsCore 10 f n acc) 0 = decodeChars acc n := by
  intro f
  induction f with
  | zero => intro n acc h; omega
  | succ f ih =>
    intro n acc h
    simp only [Nat.toDigitsCore]
    by_cases hz : n / 10 = 0
    · have hn10 : n < 10 := by omega
      have hmod : n % 10 = n := Nat.mod_eq_of_lt hn10
      simp only [hz, if_true, decodeChars, List.foldl]
      rw [hmod, charVal_digitChar hn10]
      simp [decodeChars]
    · have hrec : n / 10 < f := by omega
      simp only [hz, if_false]
      rw [ih (n / 10) (Nat.digitChar (n % 10) :: acc) hrec]
      have hm : n % 10 < 10 := Nat.mod_lt _ (by omega)
      simp only [decodeChars, List.foldl]
      rw [charVal_digitChar hm]
      have : n / 10 * 10 + n % 10 = n := by omega
      rw [this]

theorem decodeChars_toDigits (n : Nat) : decodeChars (Nat.toDigits 10 n) 0 = n := by
  have h := decodeChars_toDigitsCore (n + 1) n [] (Nat.lt_succ_self n)
  simpa [Nat.toDigits, decodeChars] using h

theorem natRepr_injective : Function.Injective Nat.repr := by
  intro a b hab
  have hd : Nat.toDigits 10 a = Nat.toDigits 10 b := by
    have : (Nat.toDigits 10 a).asString = (Nat.toDigits 10 b).asString := hab
    exact List.asString_inj.mp this
  have := decodeChars_toDigits a
  rw [hd, decodeChars_toDigits b] at this
  exact this.symm

theorem segmentName_injective : Function.Injective segmentName := by
  intro a b hab
  apply natRepr_injective
  unfold segmentName at hab
  have hdata : ("segment_".data ++ (Nat.repr a).data) ++ ".wav".data =
      ("segment_".data ++ (Nat.repr b).data) ++ ".wav".data := by
    have := congrArg String.data hab
    simpa [String.data_append, List.append_assoc] using this
  have h1 : "segment_".data ++ (Nat.repr a).data = "segment_".data ++ (Nat.repr b).data :=
    List.append_cancel_right hdata
  have h2 : (Nat.repr a).data = (Nat.repr b).data := List.append_cancel_left h1
  cases ha : Nat.repr a with
  | mk la =>
    cases hb : Nat.repr b with
    | mk lb =>
      rw [ha, hb] at h2
      simp only at h2
      rw [h2]

theorem split_length (audio : Audio) (L : Nat) :
    (split_audio_file audio L).length = (audio.length + L - 1) / L := by
  simp [split_audio_file, sliceStarts]

theorem split_eq_map_range (audio : Audio) (L : Nat) (hL : 0 < L) :
    split_audio_file audio L =
      (List.range ((audio.length + L - 1) / L)).map
        (fun k => (segmentName k, (audio.drop (L * k)).take L)) := by
  unfold split_audio_file sliceStarts
  apply List.ext_getElem
  · simp
  · intro i h1 h2
    simp only [List.getElem_map, List.getElem_range', List.getElem_range, Nat.zero_add]
    rw [Nat.mul_div_cancel_left i hL]

theorem split_names (audio : Audio) (L : Nat) (hL : 0 < L) :
    (split_audio_file audio L).map Prod.fst =
      (List.range ((audio.length + L - 1) / L)).map segmentName := by
  rw [split_eq_map_range audio L hL, List.map_map]
  rfl

theorem split_names_nodup (audio : Audio) (L : Nat) (hL : 0 < L) :
    ((split_audio_file audio L).map Prod.fst).Nodup := by
  rw [split_names audio L hL]
  exact (List.nodup_range _).map segmentName_injective

theorem flatten_chunks (L : Nat) (audio : Audio) (c : Nat) :
    ((List.range c).map (fun k => (audio.drop (L * k)).take L)).flatten
      = audio.take (c * L) := by
  induction c with
  | zero => simp
  | succ c ih =>
    rw [List.range_succ, List.map_append, List.flatten_append]
    simp only [List.map_cons, List.map_nil, List.flatten_cons, List.flatten_nil,
      List.append_nil]
    rw [ih, Nat.succ_mul, List.take_add]
    rw [Nat.mul_comm]

theorem mem_exportSegments (x : String) :
    ∀ (segs : List (String × Audio)) (fs : Finset String),
      x ∈ exportSegments segs fs ↔ x ∈ fs ∨ x ∈ segs.map Prod.fst := by
  intro segs
  induction segs with
  | nil => intro fs; simp [exportSegments]
  | cons s rest ih =>
    intro fs
    show x ∈ exportSegments rest (insert s.1 fs) ↔ _
    rw [ih (insert s.1 fs)]
    simp only [Finset.mem_insert, List.map_cons, List.mem_cons]
    tauto

theorem mem_runWorkers {E : Type} (whisper : Audio → Except E (List String)) (x : String) :
    ∀ (segs : List (String × Audio)) (fs : Finset String),
      x ∈ runWorkers whisper segs fs ↔
        x ∈ fs ∧ ∀ s ∈ segs, (∀ ts, whisper s.2 = Except.ok ts → s.1 ≠ x) := by
  intro segs
  induction segs with
  | nil => intro fs; simp [runWorkers]
  | cons s rest ih =>
    intro fs
    show x ∈ runWorkers whisper rest (transcribe_segment whisper s fs).2 ↔ _
    rw [ih]
    cases h : whisper s.2 with
    | ok ts0 =>
      have h2 : (transcribe_segment whisper s fs).2 = fs.erase s.1 := by
        simp [transcribe_segment, h]
      rw [h2]
      simp only [Finset.mem_erase, List.mem_cons, h]
      constructor
      · rintro ⟨⟨hne, hfs⟩, hrest⟩
        refine ⟨hfs, ?_⟩
        intro t ht
        rcases ht with rfl | ht
        · intro ts hts
          exact fun he => hne (he ▸ rfl)
        · exact hrest t ht
      · rintro ⟨hfs, hall⟩
        refine ⟨⟨?_, hfs⟩, ?_⟩
        · intro he
          exact hall s (Or.inl rfl) ts0 h he.symm
        · intro t ht
          exact hall t (Or.inr ht)
    | error e =>
      have h2 : (transcribe_segment whisper s fs).2 = fs := by
        simp [transcribe_segment, h]
      rw [h2]
      simp only [List.mem_cons]
      constructor
      · rintro ⟨hfs, hrest⟩
        refine ⟨hfs, ?_⟩
        intro t ht
        rcases ht with rfl | ht
        · intro ts hts
          rw [h] at hts
          exact absurd hts (by simp)
        · exact hrest t ht
      · rintro ⟨hfs, hall⟩
        exact ⟨hfs, fun t ht => hall t (Or.inr ht)⟩

theorem gatherResults_ok {E : Type} (w : Audio → List String) :
    ∀ segs : List (String × Audio),
      gatherResults (fun a => (Except.ok (w a) : Except E (List String))) segs =
        Except.ok (segs.map fun s => String.intercalate " " (w s.2)) := by
  intro segs
  induction segs with
  | nil => rfl
  | cons s rest ih => simp [gatherResults, ih, Except.map]

theorem gatherResults_error {E : Type} (whisper : Audio → Except E (List String)) :
    ∀ segs : List (String × Audio),
      (∃ s ∈ segs, ∃ e, whisper s.2 = Except.error e) →
      ∃ e, gatherResults whisper segs = Except.error e := by
  intro segs
  induction segs with
  | nil =>
    rintro ⟨s, hs, _⟩
    simp at hs
  | cons s rest ih =>
    rintro ⟨t, ht, e, he⟩
    rcases List.mem_cons.mp ht with rfl | htr
    · exact ⟨e, by simp [gatherResults, he]⟩
    · cases h : whisper s.2 with
      | ok ts =>
        obtain ⟨e2, he2⟩ := ih ⟨t, htr, e, he⟩
        exact ⟨e2, by simp [gatherResults, h, he2, Except.map]⟩
      | error e2 =>
        exact ⟨e2, by simp [gatherResults, h]⟩

theorem orderedSegs_eq_map (segs : List (String × Audio)) :
    ∀ order : List Nat, (∀ i ∈ order, i < segs.length) →
      orderedSegs segs order = order.map (fun i => segs.getD i ("", [])) := by
  intro order
  induction order with
  | nil => intro _; rfl
  | cons i rest ih =>
    intro h
    have hi : i < segs.length := h i (List.mem_cons_self i rest)
    show List.filterMap (fun i => segs[i]?) (i :: rest) = _
    rw [List.filterMap_cons_some (by rw [List.getElem?_eq_getElem hi])]
    rw [List.map_cons]
    congr 1
    · exact (List.getD_eq_getElem segs ("", []) hi).symm
    · exact ih (fun j hj => h j (List.mem_cons_of_mem _ hj))

theorem map_getD_range (segs : List (String × Audio)) (d : String × Audio) :
    (List.range segs.length).map (fun i => segs.getD i d) = segs := by
  induction segs with
  | nil => rfl
  | cons s rest ih =>
    simp only [List.length_cons, List.range_succ_eq_map, List.map_cons, List.map_map]
    refine congrArg₂ List.cons rfl ?_
    conv_rhs => rw [← ih]
    apply List.map_congr_left
    intro i _
    simp [Function.comp, List.getD_cons_succ]

theorem orderedSegs_perm (segs : List (String × Audio)) (order : List Nat)
    (hperm : order.Perm (List.range segs.length)) :
    (orderedSegs segs order).Perm segs := by
  have hb : ∀ i ∈ order, i < segs.length := by
    intro i hi
    have := hperm.mem_iff.mp hi
    simpa [List.mem_range] using this
  rw [orderedSegs_eq_map segs order hb]
  have h2 := hperm.map (fun i => segs.getD i ("", []))
  rw [map_getD_range segs ("", [])] at h2
  exact h2

theorem process_fst_of_ok {E : Type} (whisper : Audio → Except E (List String))
    (order : List Nat) (audio_file : String) (audio : Audio) (fs : Finset String)
    (texts : List String)
    (h : gatherResults whisper (orderedSegs (split_audio_file audio 60000) order) =
      Except.ok texts) :
    (process_audio_file whisper order audio_file audio fs).1 =
      Except.ok (String.intercalate " " texts) := by
  unfold process_audio_file
  rw [h]

theorem process_snd_of_ok {E : Type} (whisper : Audio → Except E (List String))
    (order : List Nat) (audio_file : String) (audio : Audio) (fs : Finset String)
    (texts : List String)
    (h : gatherResults whisper (orderedSegs (split_audio_file audio 60000) order) =
      Except.ok texts) :
    (process_audio_file whisper order audio_file audio fs).2 =
      (runWorkers whisper (orderedSegs (split_audio_file audio 60000) order)
        (exportSegments (split_audio_file audio 60000) fs)).erase audio_file := by
  unfold process_audio_file
  rw [h]

theorem process_of_error {E : Type} (whisper : Audio → Except E (List String))
    (order : List Nat) (audio_file : String) (audio : Audio) (fs : Finset String)
    (e : E)
    (h : gatherResults whisper (orderedSegs (split_audio_file audio 60000) order) =
      Except.error e) :
    process_audio_file whisper order audio_file audio fs =
      (Except.error e,
       runWorkers whisper (orderedSegs (split_audio_file audio 60000) order)
         (exportSegments (split_audio_file audio 60000) fs)) := by
  unfold process_audio_file
  rw [h]

theorem split_getElem (audio : Audio) (i : Nat)
    (h : i < (split_audio_file audio 60000).length) :
    (split_audio_file audio 60000)[i] =
      (segmentName i, (audio.drop (60000 * i)).take 60000) := by
  rw [List.getElem_of_eq (split_eq_map_range audio 60000 (by norm_num)) h]
  simp

theorem pyStrip_eq_empty_of_blank (s : String)
    (h : s.data.all Char.isWhitespace = true) :
    pyStrip s = "" := by
  unfold pyStrip
  have h1 : s.data.dropWhile Char.isWhitespace = [] :=
    List.dropWhile_eq_nil_iff.mpr (fun x hx => (List.all_eq_true.mp h) x hx)
  rw [h1]
  rfl

/-- C2: `split_audio_file` partitions the audio into consecutive chunks of
exactly 60000 ms each except that the final chunk may be shorter; the chunks in
order exactly cover the input with no gap, overlap or extra content, and the
chunk count is the ceiling of `length / 60000`. -/
theorem split_partitions_audio (audio : Audio) :
    ((split_audio_file audio 60000).map Prod.snd).flatten = audio ∧
    (split_audio_file audio 60000).length = (audio.length + 60000 - 1) / 60000 ∧
    (∀ c ∈ ((split_audio_file audio 60000).map Prod.snd).dropLast,
      c.length = 60000) ∧
    (∀ c ∈ (split_audio_file audio 60000).map Prod.snd,
      0 < c.length ∧ c.length ≤ 60000) := by
  have hmap : (split_audio_file audio 60000).map Prod.snd =
      (List.range ((audio.length + 60000 - 1) / 60000)).map
        (fun k => (audio.drop (60000 * k)).take 60000) := by
    rw [split_eq_map_range audio 60000 (by norm_num), List.map_map]
    rfl
  refine ⟨?_, split_length audio 60000, ?_, ?_⟩
  · rw [hmap, flatten_chunks]
    exact List.take_of_length_le (by omega)
  · intro c hc
    rw [hmap] at hc
    rcases Nat.eq_zero_or_pos ((audio.length + 60000 - 1) / 60000) with hz | hpos
    · rw [hz] at hc
      simp at hc
    · obtain ⟨m, hm⟩ : ∃ m, (audio.length + 60000 - 1) / 60000 = m + 1 :=
        ⟨_, (Nat.succ_pred_eq_of_pos hpos).symm⟩
      rw [hm, List.range_succ] at hc
      simp only [List.map_append, List.map_cons, List.map_nil,
        List.dropLast_concat] at hc
      obtain ⟨k, hk, rfl⟩ := List.mem_map.mp hc
      have hk' := List.mem_range.mp hk
      rw [List.length_take, List.length_drop]
      omega
  · intro c hc
    rw [hmap] at hc
    obtain ⟨k, hk, rfl⟩ := List.mem_map.mp hc
    have hk' := List.mem_range.mp hk
    rw [List.length_take, List.length_drop]
    omega

/-- C4 counterexample: a one-segment input on which Whisper hears no speech is
transcribed (successfully, to the empty string), yet the hosted language model
is not invoked on it: the code only calls `model.invoke` when
`transcription.strip()` is truthy. -/
theorem invoke_not_called_on_blank :
    (process_audio_file (fun _ => (Except.ok [] : Except Unit (List String)))
        [0] "output.wav" [5] {"output.wav"}).1 = Except.ok "" ∧
    (correct_transcription (fun q => q) "").1 = none :=
  ⟨rfl, rfl⟩

/-- C4 amended: `model.invoke` is called on the transcription for every
transcribed input whose transcription is non-blank after stripping whitespace;
blank transcriptions skip the model. -/
theorem invoke_called_on_nonblank (llm : String → String) (t : String)
    (h : pyStrip t ≠ "") :
    correct_transcription llm t =
      (some (completeQuery t), llm (completeQuery t)) := by
  have hb : (pyStrip t != "") = true := bne_iff_ne.mpr h
  simp [correct_transcription, strTruthy, hb]

theorem invoke_called_on_nonblank_witness :
    pyStrip "hi" ≠ "" ∧
    correct_transcription (fun q => q) "hi" =
      (some (completeQuery "hi"), (fun q : String => q) (completeQuery "hi")) :=
  ⟨by decide, invoke_called_on_nonblank (fun q => q) "hi" (by decide)⟩

/-- C5: whenever the hosted model is invoked, the query sent is exactly the
fixed template with the raw concatenated transcription spliced in
unmodified. -/
theorem query_matches_template (llm : String → String) (t q : String)
    (h : (correct_transcription llm t).1 = some q) :
    q = "Please correct any typos or grammatical errors in the following text: \"" ++
        t ++
        "\". Provide a coherent and polished version. Just give the corrected text without any additional information." := by
  unfold correct_transcription at h
  split at h
  · simp only [Option.some.injEq] at h
    rw [← h]
    rfl
  · simp at h

theorem query_matches_template_witness :
    (correct_transcription (fun q => q) "hi").1 = some (completeQuery "hi") ∧
    completeQuery "hi" =
      "Please correct any typos or grammatical errors in the following text: \"" ++
        "hi" ++
        "\". Provide a coherent and polished version. Just give the corrected text without any additional information." :=
  ⟨rfl, query_matches_template (fun q => q) "hi" (completeQuery "hi") rfl⟩

/-- C6 counterexample: no audio input avoids segmentation; every nonempty
input is cut into at least one fixed-length chunk by `split_audio_file`,
which `process_audio_file` calls unconditionally. -/
theorem no_input_skips_segmentation :
    ¬ ∃ audio : Audio, audio ≠ [] ∧ split_audio_file audio 60000 = [] := by
  rintro ⟨audio, hne, hemp⟩
  have hl := congrArg List.length hemp
  rw [split_length] at hl
  simp only [List.length_nil] at hl
  have h0 : audio.length = 0 := by omega
  exact hne (List.length_eq_zero.mp h0)

/-- C6 amended: the segmentation step is unconditional, not optional:
`process_audio_file` always routes its input through `split_audio_file`, every
nonempty input yields at least one exported chunk file, and input of at most
one minute is still segmented, into a single chunk holding the whole audio. -/
theorem segmentation_unconditional (audio : Audio) (h : audio ≠ [])
    (fs : Finset String) :
    split_audio_file audio 60000 ≠ [] ∧
    segmentName 0 ∈ exportSegments (split_audio_file audio 60000) fs ∧
    (audio.length ≤ 60000 →
      (split_audio_file audio 60000).map Prod.snd = [audio]) := by
  have hn : 0 < audio.length := List.length_pos.mpr h
  have hc : 0 < (audio.length + 60000 - 1) / 60000 := by omega
  refine ⟨?_, ?_, ?_⟩
  · intro he
    have hl := congrArg List.length he
    rw [split_length] at hl
    simp only [List.length_nil] at hl
    omega
  · rw [mem_exportSegments]
    right
    rw [split_names audio 60000 (by norm_num)]
    exact List.mem_map_of_mem segmentName (List.mem_range.mpr hc)
  · intro hle
    have hc1 : (audio.length + 60000 - 1) / 60000 = 1 := by omega
    have hr1 : List.range 1 = [0] := rfl
    rw [split_eq_map_range audio 60000 (by norm_num), hc1, hr1]
    simp only [List.map_cons, List.map_nil, Nat.mul_zero, List.drop_zero]
    rw [List.take_of_length_le hle]

theorem segmentation_unconditional_witness :
    (([5] : Audio) ≠ []) ∧
    (split_audio_file [5] 60000 ≠ [] ∧
     segmentName 0 ∈ exportSegments (split_audio_file [5] 60000) (∅ : Finset String) ∧
     (([5] : Audio).length ≤ 60000 →
       (split_audio_file [5] 60000).map Prod.snd = [[5]])) :=
  ⟨by decide, segmentation_unconditional [5] (by decide) ∅⟩

/-- C7 counterexample: the executor's worker count is not a fixed constant
independent of the execution environment: `ThreadPoolExecutor()` is created
with no `max_workers` argument, so the default `min(32, cpu_count + 4)`
applies and differs between machines. -/
theorem pool_size_not_fixed :
    ¬ ∃ k : Nat, ∀ cpuCount : Nat, threadPoolMaxWorkers cpuCount = k := by
  rintro ⟨k, hk⟩
  have h1 := hk 1
  have h4 := hk 4
  simp [threadPoolMaxWorkers] at h1 h4
  omega

/-- C7 amended: the executor is created with no explicit worker count; the
pool size is the library default `min(32, cpu_count + 4)`, which depends on
the machine's CPU count (e.g. 5 workers on 1 CPU but 8 workers on 4 CPUs). -/
theorem pool_size_is_env_default :
    (∀ cpuCount : Nat, threadPoolMaxWorkers cpuCount = min 32 (cpuCount + 4)) ∧
    threadPoolMaxWorkers 1 = 5 ∧ threadPoolMaxWorkers 4 = 8 ∧
    threadPoolMaxWorkers 1 ≠ threadPoolMaxWorkers 4 :=
  ⟨fun _ => rfl, by decide, by decide, by decide⟩

/-- C8: when the full transcription is empty or consists only of whitespace,
the hosted model is not invoked and the displayed corrected text is exactly
the fallback message. -/
theorem blank_transcription_skips_model (llm : String → String) (t : String)
    (h : t.data.all Char.isWhitespace = true) :
    correct_transcription llm t = (none, "No transcription available.") := by
  unfold correct_transcription
  rw [pyStrip_eq_empty_of_blank t h]
  rfl

theorem blank_transcription_skips_model_witness :
    (" ".data.all Char.isWhitespace = true) ∧
    correct_transcription (fun q => q) " " = (none, "No transcription available.") :=
  ⟨by decide, blank_transcription_skips_model (fun q => q) " " (by decide)⟩

/-- C1: for audio with more than one segment, `process_audio_file` assembles
the final transcription by joining the per-segment fragments with single
spaces in completion order (the order in which futures complete), not
necessarily the segments' positional order. -/
theorem completion_order_assembly (whisperW : Audio → List String) (order : List Nat)
    (audio_file : String) (audio : Audio) (fs : Finset String)
    (hn : 1 < (split_audio_file audio 60000).length)
    (hperm : order.Perm (List.range (split_audio_file audio 60000).length)) :
    (process_audio_file
        (fun a => (Except.ok (whisperW a) : Except Unit (List String)))
        order audio_file audio fs).1 =
      Except.ok (String.intercalate " "
        (order.map (fun i =>
          String.intercalate " " (whisperW ((audio.drop (60000 * i)).take 60000))))) := by
  have hb : ∀ i ∈ order, i < (split_audio_file audio 60000).length := by
    intro i hi
    have := hperm.mem_iff.mp hi
    simpa [List.mem_range] using this
  rw [process_fst_of_ok _ order audio_file audio fs _
      (gatherResults_ok whisperW (orderedSegs (split_audio_file audio 60000) order))]
  refine congrArg Except.ok (congrArg (String.intercalate " ") ?_)
  rw [orderedSegs_eq_map _ order hb, List.map_map]
  apply List.map_congr_left
  intro i hi
  have hilt := hb i hi
  simp only [Function.comp]
  rw [List.getD_eq_getElem _ _ hilt, split_getElem audio i hilt]

theorem completion_order_assembly_witness :
    1 < (split_audio_file (List.replicate 60001 0) 60000).length ∧
    ([1, 0] : List Nat).Perm
      (List.range (split_audio_file (List.replicate 60001 0) 60000).length) ∧
    (process_audio_file
        (fun _ => (Except.ok ["x"] : Except Unit (List String)))
        [1, 0] "input.wav" (List.replicate 60001 0) ∅).1 =
      Except.ok (String.intercalate " "
        (([1, 0] : List Nat).map (fun _ => String.intercalate " " ["x"]))) := by
  have hA : 1 < (split_audio_file (List.replicate 60001 0) 60000).length := by
    rw [split_length, List.length_replicate]
    omega
  have hB : ([1, 0] : List Nat).Perm
      (List.range (split_audio_file (List.replicate 60001 0) 60000).length) := by
    rw [split_length, List.length_replicate]
    decide
  exact ⟨hA, hB,
    completion_order_assembly (fun _ => ["x"]) [1, 0] "input.wav"
      (List.replicate 60001 0) ∅ hA hB⟩

/-- C10: the returned transcription is the space-separated join of a
permutation of the per-segment fragments (none lost or duplicated, whatever
the completion order); for audio of at most one minute it is exactly the
single segment's transcription text. -/
theorem output_is_permutation_of_fragments (whisperW : Audio → List String)
    (order : List Nat) (audio_file : String) (audio : Audio) (fs : Finset String)
    (hperm : order.Perm (List.range (split_audio_file audio 60000).length)) :
    (∃ frs : List String,
      frs.Perm ((split_audio_file audio 60000).map
        (fun s => String.intercalate " " (whisperW s.2))) ∧
      (process_audio_file
          (fun a => (Except.ok (whisperW a) : Except Unit (List String)))
          order audio_file audio fs).1 =
        Except.ok (String.intercalate " " frs)) ∧
    (audio ≠ [] → audio.length ≤ 60000 →
      (process_audio_file
          (fun a => (Except.ok (whisperW a) : Except Unit (List String)))
          order audio_file audio fs).1 =
        Except.ok (String.intercalate " " (whisperW audio))) := by
  constructor
  · refine ⟨(orderedSegs (split_audio_file audio 60000) order).map
      (fun s => String.intercalate " " (whisperW s.2)), ?_, ?_⟩
    · exact (orderedSegs_perm _ order hperm).map _
    · exact process_fst_of_ok _ order audio_file audio fs _
        (gatherResults_ok whisperW _)
  · intro hne hle
    have hn0 : 0 < audio.length := List.length_pos.mpr hne
    have hc1 : (audio.length + 60000 - 1) / 60000 = 1 := by omega
    have hr1 : List.range 1 = [0] := rfl
    have hsegs : split_audio_file audio 60000 = [(segmentName 0, audio)] := by
      rw [split_eq_map_range audio 60000 (by norm_num), hc1, hr1]
      simp only [List.map_cons, List.map_nil, Nat.mul_zero, List.drop_zero]
      rw [List.take_of_length_le hle]
    have hlen1 : (split_audio_file audio 60000).length = 1 := by
      rw [hsegs]
      rfl
    rw [hlen1, hr1] at hperm
    have hord : order = [0] := List.perm_singleton.mp hperm
    subst hord
    have hordseg : orderedSegs (split_audio_file audio 60000) [0] =
        [(segmentName 0, audio)] := by
      rw [hsegs]
      rfl
    rw [process_fst_of_ok _ [0] audio_file audio fs _ (by
      rw [hordseg]
      exact gatherResults_ok whisperW [(segmentName 0, audio)])]
    rfl

theorem output_is_permutation_of_fragments_witness :
    ([0] : List Nat).Perm (List.range (split_audio_file [5] 60000).length) ∧
    ((∃ frs : List String,
      frs.Perm ((split_audio_file [5] 60000).map
        (fun s => String.intercalate " " ["a", "b"])) ∧
      (process_audio_file
          (fun _ => (Except.ok ["a", "b"] : Except Unit (List String)))
          [0] "uploaded_audio" [5] ∅).1 =
        Except.ok (String.intercalate " " frs)) ∧
    (([5] : Audio) ≠ [] → ([5] : Audio).length ≤ 60000 →
      (process_audio_file
          (fun _ => (Except.ok ["a", "b"] : Except Unit (List String)))
          [0] "uploaded_audio" [5] ∅).1 =
        Except.ok (String.intercalate " " ["a", "b"]))) := by
  have hp : ([0] : List Nat).Perm
      (List.range (split_audio_file [5] 60000).length) := by
    decide
  exact ⟨hp,
    output_is_permutation_of_fragments (fun _ => ["a", "b"]) [0]
      "uploaded_audio" [5] ∅ hp⟩

/-- C3: after a successful run of `process_audio_file`, every segment file
created by `split_audio_file` has been deleted, the original input file has
been deleted, and no file other than the created segment files and the input
file has been removed. -/
theorem cleanup_deletes_created_and_input (whisperW : Audio → List String)
    (order : List Nat) (audio_file : String) (audio : Audio) (fs : Finset String)
    (hperm : order.Perm (List.range (split_audio_file audio 60000).length)) :
    (∀ s ∈ (split_audio_file audio 60000).map Prod.fst,
      s ∉ (process_audio_file
        (fun a => (Except.ok (whisperW a) : Except Unit (List String)))
        order audio_file audio fs).2) ∧
    audio_file ∉ (process_audio_file
      (fun a => (Except.ok (whisperW a) : Except Unit (List String)))
      order audio_file audio fs).2 ∧
    (∀ f ∈ fs, f ∉ (split_audio_file audio 60000).map Prod.fst →
      f ≠ audio_file →
      f ∈ (process_audio_file
        (fun a => (Except.ok (whisperW a) : Except Unit (List String)))
        order audio_file audio fs).2) := by
  have hsnd := process_snd_of_ok
    (fun a => (Except.ok (whisperW a) : Except Unit (List String)))
    order audio_file audio fs _
    (gatherResults_ok whisperW (orderedSegs (split_audio_file audio 60000) order))
  have hpermSegs := orderedSegs_perm (split_audio_file audio 60000) order hperm
  refine ⟨?_, ?_, ?_⟩
  · intro s0 hs0 hmem
    rw [hsnd] at hmem
    obtain ⟨hne, hrw⟩ := Finset.mem_erase.mp hmem
    rw [mem_runWorkers] at hrw
    obtain ⟨seg, hseg, h1⟩ := List.mem_map.mp hs0
    have hsegc : seg ∈ orderedSegs (split_audio_file audio 60000) order :=
      hpermSegs.mem_iff.mpr hseg
    exact hrw.2 seg hsegc (whisperW seg.2) rfl h1
  · rw [hsnd]
    exact Finset.not_mem_erase audio_file _
  · intro f hf hnames hneq
    rw [hsnd, Finset.mem_erase]
    refine ⟨hneq, ?_⟩
    rw [mem_runWorkers]
    refine ⟨?_, ?_⟩
    · rw [mem_exportSegments]
      exact Or.inl hf
    · intro s hs ts _ hq
      apply hnames
      rw [← hq]
      exact List.mem_map_of_mem Prod.fst (hpermSegs.mem_iff.mp hs)

theorem cleanup_deletes_created_and_input_witness :
    ([0] : List Nat).Perm (List.range (split_audio_file [1, 2] 60000).length) ∧
    ((∀ s ∈ (split_audio_file [1, 2] 60000).map Prod.fst,
      s ∉ (process_audio_file
        (fun _ => (Except.ok ["ok"] : Except Unit (List String)))
        [0] "output.wav" [1, 2] {"output.wav", "keep.txt"}).2) ∧
    "output.wav" ∉ (process_audio_file
      (fun _ => (Except.ok ["ok"] : Except Unit (List String)))
      [0] "output.wav" [1, 2] {"output.wav", "keep.txt"}).2 ∧
    (∀ f ∈ ({"output.wav", "keep.txt"} : Finset String),
      f ∉ (split_audio_file [1, 2] 60000).map Prod.fst →
      f ≠ "output.wav" →
      f ∈ (process_audio_file
        (fun _ => (Except.ok ["ok"] : Except Unit (List String)))
        [0] "output.wav" [1, 2] {"output.wav", "keep.txt"}).2)) := by
  have hp : ([0] : List Nat).Perm
      (List.range (split_audio_file [1, 2] 60000).length) := by
    decide
  exact ⟨hp,
    cleanup_deletes_created_and_input (fun _ => ["ok"]) [0] "output.wav"
      [1, 2] {"output.wav", "keep.txt"} hp⟩

/-- C9: if transcribing any segment raises, the exception propagates out of
`process_audio_file` (the first failure in completion order), the original
input file is not deleted, and exactly the segment files whose transcription
succeeded have been deleted: failed segments' files remain. -/
theorem error_propagation_preserves_input {E : Type}
    (whisper : Audio → Except E (List String)) (order : List Nat)
    (audio_file : String) (audio : Audio) (fs : Finset String)
    (hperm : order.Perm (List.range (split_audio_file audio 60000).length))
    (hfail : ∃ s ∈ orderedSegs (split_audio_file audio 60000) order, ∃ e,
      whisper s.2 = Except.error e)
    (hnotseg : audio_file ∉ (split_audio_file audio 60000).map Prod.fst)
    (hin : audio_file ∈ fs) :
    (∃ e, (process_audio_file whisper order audio_file audio fs).1 =
      Except.error e) ∧
    (∀ e, gatherResults whisper (orderedSegs (split_audio_file audio 60000) order) =
        Except.error e →
      (process_audio_file whisper order audio_file audio fs).1 = Except.error e) ∧
    audio_file ∈ (process_audio_file whisper order audio_file audio fs).2 ∧
    (∀ s ∈ split_audio_file audio 60000,
      (∀ ts, whisper s.2 = Except.ok ts →
        s.1 ∉ (process_audio_file whisper order audio_file audio fs).2) ∧
      (∀ e, whisper s.2 = Except.error e →
        s.1 ∈ (process_audio_file whisper order audio_file audio fs).2)) := by
  obtain ⟨e0, hg⟩ := gatherResults_error whisper _ hfail
  have hproc := process_of_error whisper order audio_file audio fs e0 hg
  have hpermSegs := orderedSegs_perm (split_audio_file audio 60000) order hperm
  have hinj := List.inj_on_of_nodup_map (split_names_nodup audio 60000 (by norm_num))
  refine ⟨⟨e0, by rw [hproc]⟩, ?_, ?_, ?_⟩
  · intro e he
    rw [process_of_error whisper order audio_file audio fs e he]
  · rw [hproc]
    simp only
    rw [mem_runWorkers]
    refine ⟨?_, ?_⟩
    · rw [mem_exportSegments]
      exact Or.inl hin
    · intro s hs ts _ hq
      apply hnotseg
      rw [← hq]
      exact List.mem_map_of_mem Prod.fst (hpermSegs.mem_iff.mp hs)
  · intro s hs
    constructor
    · intro ts hts hmem
      rw [hproc] at hmem
      simp only at hmem
      rw [mem_runWorkers] at hmem
      exact hmem.2 s (hpermSegs.mem_iff.mpr hs) ts hts rfl
    · intro e' he'
      rw [hproc]
      simp only
      rw [mem_runWorkers]
      refine ⟨?_, ?_⟩
      · rw [mem_exportSegments]
        exact Or.inr (List.mem_map_of_mem Prod.fst hs)
      · intro t ht ts hts hq
        have htSegs : t ∈ split_audio_file audio 60000 := hpermSegs.mem_iff.mp ht
        have hts' : t = s := hinj htSegs hs hq
        rw [hts', he'] at hts
        exact absurd hts (by simp)

theorem error_propagation_preserves_input_witness :
    ([0] : List Nat).Perm (List.range (split_audio_file [7] 60000).length) ∧
    (∃ s ∈ orderedSegs (split_audio_file [7] 60000) [0], ∃ e,
      (fun _ : Audio => (Except.error 3 : Except Nat (List String))) s.2 =
        Except.error e) ∧
    "output.wav" ∉ (split_audio_file [7] 60000).map Prod.fst ∧
    "output.wav" ∈ ({"output.wav"} : Finset String) ∧
    ((∃ e, (process_audio_file
        (fun _ : Audio => (Except.error 3 : Except Nat (List String)))
        [0] "output.wav" [7] {"output.wav"}).1 = Except.error e) ∧
    (∀ e, gatherResults
        (fun _ : Audio => (Except.error 3 : Except Nat (List String)))
        (orderedSegs (split_audio_file [7] 60000) [0]) = Except.error e →
      (process_audio_file
        (fun _ : Audio => (Except.error 3 : Except Nat (List String)))
        [0] "output.wav" [7] {"output.wav"}).1 = Except.error e) ∧
    "output.wav" ∈ (process_audio_file
      (fun _ : Audio => (Except.error 3 : Except Nat (List String)))
      [0] "output.wav" [7] {"output.wav"}).2 ∧
    (∀ s ∈ split_audio_file [7] 60000,
      (∀ ts, (fun _ : Audio => (Except.error 3 : Except Nat (List String))) s.2 =
          Except.ok ts →
        s.1 ∉ (process_audio_file
          (fun _ : Audio => (Except.error 3 : Except Nat (List String)))
          [0] "output.wav" [7] {"output.wav"}).2) ∧
      (∀ e, (fun _ : Audio => (Except.error 3 : Except Nat (List String))) s.2 =
          Except.error e →
        s.1 ∈ (process_audio_file
          (fun _ : Audio => (Except.error 3 : Except Nat (List String)))
          [0] "output.wav" [7] {"output.wav"}).2))) := by
  have hp : ([0] : List Nat).Perm
      (List.range (split_audio_file [7] 60000).length) := by
    decide
  have hf : ∃ s ∈ orderedSegs (split_audio_file [7] 60000) [0], ∃ e,
      (fun _ : Audio => (Except.error 3 : Except Nat (List String))) s.2 =
        Except.error e :=
    ⟨(segmentName 0, [7]), by decide, 3, rfl⟩
  have hns : "output.wav" ∉ (split_audio_file [7] 60000).map Prod.fst := by
    decide
  have hin : "output.wav" ∈ ({"output.wav"} : Finset String) := by
    decide
  exact ⟨hp, hf, hns, hin,
    error_propagation_preserves_input
      (fun _ : Audio => (Except.error 3 : Except Nat (List String)))
      [0] "output.wav" [7] {"output.wav"} hp hf hns hin⟩
